import Mathlib

/-!
Verification of the charge/discharge window selection algorithm of the
laddtider repository (src/laddtider.py, src/laddtider_simple.py, src/config.py).

Shallow embedding conventions:
* A timestamp is a natural number counting whole hours from an epoch; the
  calendar day of an hour t is t / 24 and its hour of day is t % 24.  The
  source manipulates hour-aligned zoned datetimes; on those, a difference of
  timedelta(hours=1) is a successor in this encoding and the day comparison
  of line 83 of laddtider.py agrees with equality of t / 24 (two hours of a
  block are at most two hours apart, so equal day-of-month implies equal day).
* Prices are rationals (the source uses floats; all claims are about the
  exact arithmetic the formulas denote).
* sys.exit on empty data (lines 61-63 of laddtider.py) is modelled by an
  Option-valued result: none is the fatal empty-data failure.
* Python list.sort is stable; it is modelled by List.insertionSort, which is
  stable for the corresponding total preorder.
-/

/-- Tibber fee in öre/kWh, VAT included (config.py TIBBER_ADDON). -/
def TIBBER_ADDON : ℚ := 8.6

/-- VAT multiplier (config.py VAT). -/
def VAT : ℚ := 1.25

/-- Grid cost in öre/kWh (config.py GRID_COST). -/
def GRID_COST : ℚ := 86.375

/-- Round-trip efficiency of the battery (config.py SYSTEM_EFFICIENCY). -/
def SYSTEM_EFFICIENCY : ℚ := 0.857

/-- Required discharge margin, laddtider.py line 31:
GRID_COST * (1 - SYSTEM_EFFICIENCY). -/
def MARGIN_REQUIRED : ℚ := GRID_COST * (1 - SYSTEM_EFFICIENCY)

/-- Total price from a spot price in SEK/kWh (laddtider.py lines 46-50):
spot_ore = spot_price * 100; price_before_vat = spot_ore + TIBBER_ADDON / VAT;
result = price_before_vat * VAT. -/
def calculate_total_price (spot_price : ℚ) : ℚ :=
  (spot_price * 100 + TIBBER_ADDON / VAT) * VAT

/-- Chronological order on (hour, price) records, the key of the sort at
laddtider.py line 66. -/
def timeLE (a b : Nat × ℚ) : Prop := a.1 ≤ b.1

instance : DecidableRel timeLE := fun a b => Nat.decLe a.1 b.1

instance : IsTotal (Nat × ℚ) timeLE := ⟨fun a b => Nat.le_total a.1 b.1⟩

instance : IsTrans (Nat × ℚ) timeLE := ⟨fun _ _ _ => Nat.le_trans⟩

/-- Stable chronological sort of the price records (laddtider.py line 66). -/
def sortT (l : List (Nat × ℚ)) : List (Nat × ℚ) := l.insertionSort timeLE

/-- Ascending sort of a list of hours (the sorted(...) calls of
laddtider.py lines 192 and 196). -/
def sortNat (l : List Nat) : List Nat := l.insertionSort (· ≤ ·)

/-- Extension step of the block-building loop (laddtider.py lines 78-91):
append up to k further records while the candidate is on the calendar day d0
of the block's first hour and exactly one hour after the hour collected last. -/
def extendBlock : Nat → Nat → Nat → List (Nat × ℚ) → List (Nat × ℚ)
  | 0, _, _, _ => []
  | _ + 1, _, _, [] => []
  | k + 1, d0, last, y :: rest =>
    if y.1 / 24 ≠ d0 then []
    else if y.1 ≠ last + 1 then []
    else y :: extendBlock k d0 y.1 rest

/-- The charging block anchored at the first record of a suffix of the sorted
series: the first record followed by at most two extension records
(laddtider.py lines 72-91, with the loop bound of 3 hours). -/
def buildBlock : List (Nat × ℚ) → List (Nat × ℚ)
  | [] => []
  | x :: rest => x :: extendBlock 2 (x.1 / 24) x.1 rest

/-- A candidate charging block as stored at laddtider.py lines 103-107:
its (hour, price) records, its average price, and its discharge options. -/
structure Block where
  hours : List (Nat × ℚ)
  avg : ℚ
  discharge : List (Nat × ℚ)
deriving DecidableEq, Repr

/-- The hours of a block (the times list of the source's block dict). -/
def Block.times (b : Block) : List Nat := b.hours.map Prod.fst

/-- Hour of day of the block's first hour, the second sort key of
laddtider.py line 110. -/
def Block.startHour (b : Block) : Nat := (b.hours.head?.getD (0, 0)).1 % 24

/-- The candidate block generated from one suffix of the sorted series
(laddtider.py lines 72-107): build the block, compute its average price, and
keep it only when at least one later record qualifies as a discharge option,
that is has price at least average + margin. -/
def blockOf (m : ℚ) (s : List (Nat × ℚ)) : Option Block :=
  match s with
  | [] => none
  | x :: rest =>
    let bt := buildBlock (x :: rest)
    let avg := (bt.map Prod.snd).sum / bt.length
    let opts := ((x :: rest).drop bt.length).filter (fun tp => decide (avg + m ≤ tp.2))
    if opts.isEmpty then none else some ⟨bt, avg, opts⟩

/-- All candidate charging blocks of the sorted series, one attempt per
start index (laddtider.py lines 69-107). -/
def mkBlocks (m : ℚ) : List (Nat × ℚ) → List Block
  | [] => []
  | x :: rest => (blockOf m (x :: rest)).toList ++ mkBlocks m rest

/-- Sort key order on candidate blocks: by average price, then by hour of day
of the block's first hour (laddtider.py line 110). -/
def blockLE (x y : Block) : Prop :=
  x.avg < y.avg ∨ (x.avg = y.avg ∧ x.startHour ≤ y.startHour)

instance : DecidableRel blockLE := fun x y => by
  unfold blockLE; infer_instance

/-- Stable sort of the candidate blocks (laddtider.py line 110). -/
def sortBlocks (l : List Block) : List Block := l.insertionSort blockLE

/-- One committed charge/discharge pair, as recorded in the decisions list of
laddtider.py lines 148-153. -/
structure Decision where
  chargeTimes : List Nat
  chargePrice : ℚ
  dischargeTimes : List Nat
deriving DecidableEq, Repr

/-- All hours a committed decision consumes. -/
def consumed (d : Decision) : List Nat := d.chargeTimes ++ d.dischargeTimes

/-- Discharge hours committed for a block given the hours used before it,
laddtider.py line 143: the option hours not yet used, where the used set
already contains the block's own charge hours. -/
def newDischarge (b : Block) (used : List Nat) : List Nat :=
  (b.discharge.map Prod.fst).filter (fun t => decide (t ∉ used ++ b.times))

/-- The greedy assignment loop of laddtider.py lines 131-153, with explicit
accumulators for charge hours, discharge hours, used hours and decisions.
A block any of whose charge hours is already used is skipped whole; otherwise
its charge hours and its not-yet-used option hours are committed. -/
def greedyLoop : List Block → List Nat → List Nat → List Nat → List Decision →
    List Nat × List Nat × List Decision
  | [], ch, dis, _, decs => (ch, dis, decs)
  | b :: bs, ch, dis, used, decs =>
    if b.times.any (fun t => decide (t ∈ used)) then
      greedyLoop bs ch dis used decs
    else
      greedyLoop bs (ch ++ b.times) (dis ++ newDischarge b used)
        (used ++ b.times ++ newDischarge b used)
        (decs ++ [⟨b.times, b.avg, newDischarge b used⟩])

/-- The value returned by find_charge_discharge_hours together with the
decisions list the source logs: sorted charge hours, sorted discharge hours
with hours overlapping a charge hour removed (laddtider.py lines 190-196),
and the committed decisions. -/
structure Result where
  chargeHours : List Nat
  dischargeHours : List Nat
  decisions : List Decision
deriving DecidableEq, Repr

/-- Package the accumulators of the greedy loop into the final result
(laddtider.py lines 190-196). -/
def mkResult (r : List Nat × List Nat × List Decision) : Result :=
  ⟨sortNat r.1, (sortNat r.2.1).filter (fun t => decide (t ∉ r.1)), r.2.2⟩

/-- find_charge_discharge_hours of laddtider.py over an already normalized
series, with the required margin as a parameter: none models the fatal
sys.exit on empty data (lines 61-63); otherwise sort chronologically, build
and sort the candidate blocks, run the greedy loop and package the result. -/
def findCDFull (m : ℚ) (pts : List (Nat × ℚ)) : Option Result :=
  if pts.isEmpty then none
  else some (mkResult (greedyLoop (sortBlocks (mkBlocks m (sortT pts))) [] [] [] []))

/-- The pair of hour lists find_charge_discharge_hours returns. -/
def findCD (m : ℚ) (pts : List (Nat × ℚ)) : Option (List Nat × List Nat) :=
  (findCDFull m pts).map (fun res => (res.chargeHours, res.dischargeHours))

/-- The source entry point: normalize the raw (hour, spot price) records with
calculate_total_price and run the selection with the configured margin. -/
def find_charge_discharge_hours (prices : List (Nat × ℚ)) :
    Option (List Nat × List Nat) :=
  findCD MARGIN_REQUIRED (prices.map (fun r => (r.1, calculate_total_price r.2)))

/-- Order on the simple variant's charge blocks: by first charge hour
(laddtider_simple.py line 101). -/
def simpleBlockLE (x y : List Nat × ℚ) : Prop :=
  x.1.head?.getD 0 ≤ y.1.head?.getD 0

instance : DecidableRel simpleBlockLE := fun _ _ => Nat.decLe _ _

/-- Cheapest positional window of three records of a day segment
(laddtider_simple.py lines 84-95): scan all windows of three consecutive
positions, keeping the first window of minimal average price. -/
def bestWindow (seg : List (Nat × ℚ)) : Option (List Nat × ℚ) :=
  (List.range (seg.length - 2)).foldl
    (fun acc i =>
      let w := (seg.drop i).take 3
      let avg := (w.map Prod.snd).sum / 3
      match acc with
      | none => some (w.map Prod.fst, avg)
      | some best => if avg < best.2 then some (w.map Prod.fst, avg) else some best)
    none

/-- find_charge_discharge_hours of laddtider_simple.py: split the sorted
series into the 00:00-05:00 and 12:00-16:00 segments, pick the cheapest
three-position window of each segment with at least three records, then in
chronological block order collect every later hour whose price is at least
the block average plus the margin of 25 öre into one deduplicated candidate
set; charge hours are all block hours, discharge hours the sorted candidate
set (lines 53-119). -/
def findCDSimple (pts0 : List (Nat × ℚ)) : Option (List Nat × List Nat) :=
  if pts0.isEmpty then none
  else
    let pts := sortT pts0
    let segs := [pts.filter (fun tp => decide (tp.1 % 24 < 5)),
                 pts.filter (fun tp => decide (12 ≤ tp.1 % 24) && decide (tp.1 % 24 < 16))]
    let cbs := segs.filterMap (fun seg => if seg.length < 3 then none else bestWindow seg)
    let sorted := cbs.insertionSort simpleBlockLE
    let step := sorted.foldl
      (fun (acc : List Nat × List Nat) bw =>
        (acc.1 ++ bw.1,
         acc.2 ++ ((pts.filter (fun tp =>
           decide (bw.1.getLast?.getD 0 < tp.1) && decide (bw.2 + 25 ≤ tp.2))).map Prod.fst)))
      ([], [])
    some (step.1, sortNat step.2.dedup)

/-- Claim C7: for every spot price s the normalized total cost equals
(s * 100 + F / V) * V with F the VAT-inclusive fixed fee and V the VAT
multiplier, and equivalently the fee's pre-VAT component F / V is added to
the spot price in öre before VAT is applied to the sum, so the cost is
s * 100 * V + F. -/
theorem claim_C7 (s : ℚ) :
    calculate_total_price s = (s * 100 + TIBBER_ADDON / VAT) * VAT ∧
    calculate_total_price s = s * 100 * VAT + TIBBER_ADDON := by
  refine ⟨rfl, ?_⟩
  unfold calculate_total_price TIBBER_ADDON VAT
  norm_num
  ring

/-- Claim C6: an empty normalized price series makes the computation fail
with the fatal empty-data error (modelled by none), producing no schedule,
while every nonempty series produces a result. -/
theorem claim_C6 (m : ℚ) :
    findCDFull m [] = none ∧
    ∀ pts : List (Nat × ℚ), pts ≠ [] → (findCDFull m pts).isSome := by
  constructor
  · rfl
  · intro pts hne
    unfold findCDFull
    rw [if_neg (by simpa using hne)]
    rfl

/-- Witness for claim C6: the empty series fails and the one-record series
succeeds. -/
theorem claim_C6_witness :
    findCDFull 0 [] = none ∧ (findCDFull 0 [(0, 5)]).isSome :=
  ⟨(claim_C6 0).1, (claim_C6 0).2 [(0, 5)] (by simp)⟩

lemma extendBlock_append (k d last : Nat) (r : List (Nat × ℚ)) :
    ∃ r2, extendBlock k d last r ++ r2 = r := by
  induction k generalizing last r with
  | zero => exact ⟨r, rfl⟩
  | succ k ih =>
    cases r with
    | nil => exact ⟨[], rfl⟩
    | cons y rest =>
      unfold extendBlock
      by_cases h1 : y.1 / 24 ≠ d
      · rw [if_pos h1]; exact ⟨y :: rest, rfl⟩
      · rw [if_neg h1]
        by_cases h2 : y.1 ≠ last + 1
        · rw [if_pos h2]; exact ⟨y :: rest, rfl⟩
        · rw [if_neg h2]
          obtain ⟨r2, hr2⟩ := ih y.1 rest
          exact ⟨r2, by simp [hr2]⟩

lemma extendBlock_length (k d last : Nat) (r : List (Nat × ℚ)) :
    (extendBlock k d last r).length ≤ k := by
  induction k generalizing last r with
  | zero => simp [extendBlock]
  | succ k ih =>
    cases r with
    | nil => simp [extendBlock]
    | cons y rest =>
      unfold extendBlock
      by_cases h1 : y.1 / 24 ≠ d
      · rw [if_pos h1]; simp
      · rw [if_neg h1]
        by_cases h2 : y.1 ≠ last + 1
        · rw [if_pos h2]; simp
        · rw [if_neg h2]
          simpa using Nat.succ_le_succ (ih y.1 rest)

lemma extendBlock_day (k d last : Nat) (r : List (Nat × ℚ)) :
    ∀ y ∈ extendBlock k d last r, y.1 / 24 = d := by
  induction k generalizing last r with
  | zero => simp [extendBlock]
  | succ k ih =>
    cases r with
    | nil => simp [extendBlock]
    | cons y rest =>
      unfold extendBlock
      by_cases h1 : y.1 / 24 ≠ d
      · rw [if_pos h1]; simp
      · rw [if_neg h1]
        by_cases h2 : y.1 ≠ last + 1
        · rw [if_pos h2]; simp
        · rw [if_neg h2]
          intro z hz
          rcases List.mem_cons.mp hz with hz | hz
          · subst hz; exact not_not.mp h1
          · exact ih y.1 rest z hz

lemma extendBlock_chain (k d last : Nat) (r : List (Nat × ℚ)) :
    List.Chain (fun a b => b = a + 1) last ((extendBlock k d last r).map Prod.fst) := by
  induction k generalizing last r with
  | zero => simp [extendBlock]
  | succ k ih =>
    cases r with
    | nil => simp [extendBlock]
    | cons y rest =>
      unfold extendBlock
      by_cases h1 : y.1 / 24 ≠ d
      · rw [if_pos h1]; simp
      · rw [if_neg h1]
        by_cases h2 : y.1 ≠ last + 1
        · rw [if_pos h2]; simp
        · rw [if_neg h2]
          exact List.Chain.cons (not_not.mp h2) (ih y.1 rest)

lemma buildBlock_append (s : List (Nat × ℚ)) : ∃ r2, buildBlock s ++ r2 = s := by
  cases s with
  | nil => exact ⟨[], rfl⟩
  | cons x rest =>
    obtain ⟨r2, hr2⟩ := extendBlock_append 2 (x.1 / 24) x.1 rest
    exact ⟨r2, by simp [buildBlock, hr2]⟩

lemma buildBlock_ne_nil {s : List (Nat × ℚ)} (h : s ≠ []) : buildBlock s ≠ [] := by
  cases s with
  | nil => exact absurd rfl h
  | cons x rest => simp [buildBlock]

lemma buildBlock_length (s : List (Nat × ℚ)) : (buildBlock s).length ≤ 3 := by
  cases s with
  | nil => simp [buildBlock]
  | cons x rest =>
    simpa [buildBlock] using Nat.succ_le_succ (extendBlock_length 2 (x.1 / 24) x.1 rest)

lemma buildBlock_chain (s : List (Nat × ℚ)) :
    List.Chain' (fun a b => b = a + 1) ((buildBlock s).map Prod.fst) := by
  cases s with
  | nil => simp [buildBlock]
  | cons x rest =>
    simpa [buildBlock] using extendBlock_chain 2 (x.1 / 24) x.1 rest

lemma buildBlock_day (s : List (Nat × ℚ)) :
    ∀ y ∈ buildBlock s, ∀ z ∈ buildBlock s, y.1 / 24 = z.1 / 24 := by
  cases s with
  | nil => simp [buildBlock]
  | cons x rest =>
    have hd : ∀ y ∈ buildBlock (x :: rest), y.1 / 24 = x.1 / 24 := by
      intro y hy
      rcases List.mem_cons.mp (by simpa [buildBlock] using hy) with hy' | hy'
      · rw [hy']
      · exact extendBlock_day 2 (x.1 / 24) x.1 rest y hy'
    intro y hy z hz
    rw [hd y hy, hd z hz]

lemma blockOf_eq_some {m : ℚ} {s : List (Nat × ℚ)} {b : Block}
    (h : blockOf m s = some b) :
    s ≠ [] ∧ b.hours = buildBlock s ∧
    b.avg = ((buildBlock s).map Prod.snd).sum / (buildBlock s).length ∧
    b.discharge = (s.drop (buildBlock s).length).filter
      (fun tp => decide (b.avg + m ≤ tp.2)) ∧
    b.discharge ≠ [] := by
  cases s with
  | nil => exact absurd h (by simp [blockOf])
  | cons x rest =>
    simp only [blockOf] at h
    split_ifs at h with he
    have hb := Option.some_inj.mp h
    subst hb
    refine ⟨by simp, rfl, rfl, rfl, ?_⟩
    simpa using he

lemma mem_mkBlocks {m : ℚ} {l : List (Nat × ℚ)} {b : Block} (h : b ∈ mkBlocks m l) :
    ∃ s, s.IsSuffix l ∧ blockOf m s = some b := by
  induction l with
  | nil => simp [mkBlocks] at h
  | cons x rest ih =>
    have h' : blockOf m (x :: rest) = some b ∨ b ∈ mkBlocks m rest := by
      simpa [mkBlocks] using h
    rcases h' with h' | h'
    · exact ⟨x :: rest, List.suffix_refl _, h'⟩
    · obtain ⟨s, hs, hb⟩ := ih h'
      exact ⟨s, hs.trans (List.suffix_cons x rest), hb⟩

lemma mkBlocks_of_suffix {m : ℚ} {l s : List (Nat × ℚ)} {b : Block}
    (hs : s.IsSuffix l) (h : blockOf m s = some b) : b ∈ mkBlocks m l := by
  induction l with
  | nil =>
    rw [List.suffix_nil.mp hs] at h
    simp [blockOf] at h
  | cons x rest ih =>
    obtain ⟨t, ht⟩ := hs
    cases t with
    | nil =>
      simp only [List.nil_append] at ht
      subst ht
      simp [mkBlocks, Option.mem_toList, Option.mem_def, h]
    | cons y t' =>
      obtain ⟨-, h2⟩ : y = x ∧ t' ++ s = rest := by simpa using ht
      have hb := ih ⟨t', h2⟩
      simp [mkBlocks, hb]

/-- Claim C8: every generated charge block consists of 1 to 3 hours, all on
the same calendar day, pairwise one-hour-consecutive, and its average cost is
the arithmetic mean of its hours' costs. -/
theorem claim_C8 (m : ℚ) (pts : List (Nat × ℚ)) (b : Block)
    (hb : b ∈ mkBlocks m pts) :
    1 ≤ b.times.length ∧ b.times.length ≤ 3 ∧
    List.Chain' (fun a c => c = a + 1) b.times ∧
    (∀ t ∈ b.times, ∀ u ∈ b.times, t / 24 = u / 24) ∧
    b.avg = (b.hours.map Prod.snd).sum / b.hours.length := by
  obtain ⟨s, _, h⟩ := mem_mkBlocks hb
  obtain ⟨hne, hhours, havg, _, _⟩ := blockOf_eq_some h
  have hlen : b.hours.length = (buildBlock s).length := by rw [hhours]
  refine ⟨?_, ?_, ?_, ?_, ?_⟩
  · have : buildBlock s ≠ [] := buildBlock_ne_nil hne
    simpa [Block.times, hhours] using List.length_pos.mpr this
  · simpa [Block.times, hhours] using buildBlock_length s
  · simpa [Block.times, hhours] using buildBlock_chain s
  · intro t ht u hu
    simp only [Block.times, hhours, List.mem_map] at ht hu
    obtain ⟨y, hy, hyt⟩ := ht
    obtain ⟨z, hz, hzu⟩ := hu
    rw [← hyt, ← hzu]
    exact buildBlock_day s y hy z hz
  · rw [havg, hhours]

/-- Witness for claim C8, instantiated at a two-record series whose first
block has a single hour. -/
theorem claim_C8_witness :
    1 ≤ (Block.times ⟨[(0, 1)], 1, [(2, 5)]⟩).length ∧
    (Block.times ⟨[(0, 1)], 1, [(2, 5)]⟩).length ≤ 3 ∧
    List.Chain' (fun a c => c = a + 1) (Block.times ⟨[(0, 1)], 1, [(2, 5)]⟩) ∧
    (∀ t ∈ Block.times ⟨[(0, 1)], 1, [(2, 5)]⟩,
      ∀ u ∈ Block.times ⟨[(0, 1)], 1, [(2, 5)]⟩, t / 24 = u / 24) ∧
    Block.avg ⟨[(0, 1)], 1, [(2, 5)]⟩ =
      ((Block.hours ⟨[(0, 1)], 1, [(2, 5)]⟩).map Prod.snd).sum /
        (Block.hours ⟨[(0, 1)], 1, [(2, 5)]⟩).length :=
  claim_C8 0 [(0, 1), (2, 5)] ⟨[(0, 1)], 1, [(2, 5)]⟩ (by
    norm_num [mkBlocks, blockOf, buildBlock, extendBlock, List.filter])

lemma sortT_perm (l : List (Nat × ℚ)) : (sortT l).Perm l :=
  List.perm_insertionSort _ _

lemma sortT_pairwise {l : List (Nat × ℚ)} (h : (l.map Prod.fst).Nodup) :
    (sortT l).Pairwise (fun a b => a.1 < b.1) := by
  have hs : (sortT l).Pairwise timeLE := List.sorted_insertionSort _ _
  have hnd : ((sortT l).map Prod.fst).Nodup :=
    (((sortT_perm l).map Prod.fst).nodup_iff).mpr h
  have hne : (sortT l).Pairwise (fun a b => a.1 ≠ b.1) := List.pairwise_map.mp hnd
  exact (hs.and hne).imp (fun hab => lt_of_le_of_ne hab.1 hab.2)

lemma block_struct {m : ℚ} {l : List (Nat × ℚ)} {b : Block} (hb : b ∈ mkBlocks m l) :
    ∃ t bb r2, t ++ (bb ++ r2) = l ∧ bb = buildBlock (bb ++ r2) ∧ bb ≠ [] ∧
      b.hours = bb ∧
      b.discharge = r2.filter (fun tp => decide (b.avg + m ≤ tp.2)) ∧
      b.discharge ≠ [] := by
  obtain ⟨s, hs, h⟩ := mem_mkBlocks hb
  obtain ⟨hne, hhours, _, hdis, hdne⟩ := blockOf_eq_some h
  obtain ⟨t, ht⟩ := hs
  obtain ⟨r2, hr2⟩ := buildBlock_append s
  have hdrop : s.drop (buildBlock s).length = r2 := by
    have hd := List.drop_left (buildBlock s) r2
    rwa [hr2] at hd
  refine ⟨t, buildBlock s, r2, by rw [hr2, ht], by rw [hr2], buildBlock_ne_nil hne,
    hhours, ?_, hdne⟩
  rw [hdis, hdrop]

lemma block_wf {m : ℚ} {l : List (Nat × ℚ)} (hl : l.Pairwise (fun a b => a.1 < b.1))
    {b : Block} (hb : b ∈ mkBlocks m l) :
    b.times.Nodup ∧ (b.discharge.map Prod.fst).Nodup ∧
    ∀ x ∈ b.discharge, x ∈ l ∧ b.avg + m ≤ x.2 ∧ ∀ u ∈ b.times, u < x.1 := by
  obtain ⟨t, bb, r2, hl2, _, hbbne, hhours, hdis, _⟩ := block_struct hb
  have hsp : (t ++ (bb ++ r2)).Pairwise (fun a b => a.1 < b.1) := by rwa [hl2]
  have hmid : (bb ++ r2).Pairwise (fun a b => a.1 < b.1) :=
    (List.pairwise_append.mp hsp).2.1
  obtain ⟨hpbb, hpr2, hcross⟩ := List.pairwise_append.mp hmid
  have hdsub : b.discharge.Sublist r2 := by rw [hdis]; exact List.filter_sublist _
  refine ⟨?_, ?_, ?_⟩
  · have hp : b.times.Pairwise (· < ·) := by
      rw [Block.times, hhours]
      exact List.pairwise_map.mpr hpbb
    exact hp.nodup
  · have hp : (b.discharge.map Prod.fst).Pairwise (· < ·) :=
      List.pairwise_map.mpr (List.Pairwise.sublist hdsub hpr2)
    exact hp.nodup
  · intro x hx
    have hxr2 : x ∈ r2 := hdsub.subset hx
    refine ⟨?_, ?_, ?_⟩
    · have : r2.Sublist l := by
        rw [← hl2]
        exact ((List.sublist_append_right bb r2).trans
          (List.sublist_append_right t (bb ++ r2)))
      exact this.subset hxr2
    · rw [hdis] at hx
      exact of_decide_eq_true (List.mem_filter.mp hx).2
    · intro u hu
      rw [Block.times, hhours] at hu
      obtain ⟨y, hy, hyu⟩ := List.mem_map.mp hu
      rw [← hyu]
      exact hcross y hy x hxr2

/-- Claim C1 (corrected): for a block of the sorted series, the discharge
options are exactly all hours strictly after every hour of the block whose
cost is at least the block average plus the margin — no contiguity
requirement, no truncation to three times the block length, and no selection
of a best run takes place. -/
theorem claim_C1_amended (m : ℚ) (pts : List (Nat × ℚ))
    (hs : pts.Pairwise (fun a b => a.1 < b.1)) (b : Block)
    (hb : b ∈ mkBlocks m pts) :
    b.discharge = pts.filter (fun tp =>
      b.times.all (fun u => decide (u < tp.1)) && decide (b.avg + m ≤ tp.2)) := by
  obtain ⟨t, bb, r2, hl2, -, hbbne, hhours, hdis, -⟩ := block_struct hb
  subst hl2
  obtain ⟨-, hmid, hcrossT⟩ := List.pairwise_append.mp hs
  obtain ⟨-, -, hcross⟩ := List.pairwise_append.mp hmid
  rw [List.filter_append, List.filter_append]
  have h1 : t.filter (fun tp =>
      b.times.all (fun u => decide (u < tp.1)) && decide (b.avg + m ≤ tp.2)) = [] := by
    rw [List.filter_eq_nil_iff]
    intro a ha hpa
    rw [Bool.and_eq_true, List.all_eq_true] at hpa
    cases bb with
    | nil => exact hbbne rfl
    | cons y0 bb' =>
      have h0 : y0.1 ∈ b.times := by
        rw [Block.times, hhours]
        exact List.mem_map_of_mem _ (List.mem_cons_self _ _)
      have hlt : y0.1 < a.1 := of_decide_eq_true (hpa.1 _ h0)
      have hgt : a.1 < y0.1 :=
        hcrossT a ha y0 (List.mem_append_left _ (List.mem_cons_self _ _))
      exact Nat.lt_asymm hlt hgt
  have h2 : bb.filter (fun tp =>
      b.times.all (fun u => decide (u < tp.1)) && decide (b.avg + m ≤ tp.2)) = [] := by
    rw [List.filter_eq_nil_iff]
    intro a ha hpa
    rw [Bool.and_eq_true, List.all_eq_true] at hpa
    have h0 : a.1 ∈ b.times := by
      rw [Block.times, hhours]
      exact List.mem_map_of_mem _ ha
    exact Nat.lt_irrefl _ (of_decide_eq_true (hpa.1 _ h0))
  have h3 : r2.filter (fun tp =>
      b.times.all (fun u => decide (u < tp.1)) && decide (b.avg + m ≤ tp.2)) =
      r2.filter (fun tp => decide (b.avg + m ≤ tp.2)) := by
    apply List.filter_congr
    intro a ha
    have hall : b.times.all (fun u => decide (u < a.1)) = true := by
      rw [List.all_eq_true]
      intro u hu
      rw [Block.times, hhours] at hu
      obtain ⟨y, hy, hyu⟩ := List.mem_map.mp hu
      rw [← hyu]
      exact decide_eq_true (hcross y hy a ha)
    rw [hall, Bool.true_and]
  rw [h1, h2, h3, hdis, List.nil_append, List.nil_append]

/-- Counterexample to claim C1 as stated: at margin 10 the block anchored at
hour 0 of the series 0→0, 2→50, 3→50, 4→0, 5→50, 6→50, 7→50 is matched with
the five non-contiguous discharge hours 2, 3, 5, 6, 7, which also exceed
three times the block length. -/
theorem claim_C1_cex :
    ¬ (∀ (m : ℚ) (pts : List (Nat × ℚ)) (b : Block), b ∈ mkBlocks m pts →
        List.Chain' (fun a c => c = a + 1) (b.discharge.map Prod.fst) ∧
        b.discharge.length ≤ 3 * b.times.length) := by
  intro h
  have hc := h 10 [(0, 0), (2, 50), (3, 50), (4, 0), (5, 50), (6, 50), (7, 50)]
    ⟨[(0, 0)], 0, [(2, 50), (3, 50), (5, 50), (6, 50), (7, 50)]⟩
    (by norm_num [mkBlocks, blockOf, buildBlock, extendBlock, List.filter])
  have h2 := hc.2
  norm_num [Block.times] at h2

/-- Witness for the amended claim C1 at a concrete two-record series. -/
theorem claim_C1_witness :
    Block.discharge ⟨[(0, 1)], 1, [(2, 5)]⟩ =
      ([(0, 1), (2, 5)] : List (Nat × ℚ)).filter (fun tp =>
        (Block.times ⟨[(0, 1)], 1, [(2, 5)]⟩).all (fun u => decide (u < tp.1)) &&
        decide (Block.avg ⟨[(0, 1)], 1, [(2, 5)]⟩ + 0 ≤ tp.2)) :=
  claim_C1_amended 0 [(0, 1), (2, 5)] (by decide) ⟨[(0, 1)], 1, [(2, 5)]⟩ (by
    norm_num [mkBlocks, blockOf, buildBlock, extendBlock, List.filter])

/-- Claim C4 (corrected): a block survives exactly when some later hour of
the series qualifies, regardless of its calendar day: every kept block has a
nonempty option list, and on the two-day series 23→10, 24→50 (the second
hour being 00:00 of the next day) the block ending at 23:00 is kept and
discharges on the following day. -/
theorem claim_C4_amended :
    (∀ (m : ℚ) (pts : List (Nat × ℚ)) (b : Block), b ∈ mkBlocks m pts →
      b.discharge ≠ []) ∧
    findCDFull 0 [(23, 10), (24, 50)] = some ⟨[23], [24], [⟨[23], 10, [24]⟩]⟩ := by
  constructor
  · intro m pts b hb
    obtain ⟨s, -, h⟩ := mem_mkBlocks hb
    exact (blockOf_eq_some h).2.2.2.2
  · norm_num [findCDFull, mkResult, greedyLoop, newDischarge, sortBlocks, blockLE,
      Block.startHour, mkBlocks, blockOf, buildBlock, extendBlock, sortT, timeLE,
      sortNat, Block.times, List.insertionSort, List.orderedInsert, List.filter]

/-- Counterexample to claim C4 as stated: on the series 23→10, 24→50 the
block ending at hour 23 (day 0) is not discarded; it commits the discharge
hour 24, which lies on day 1. -/
theorem claim_C4_cex :
    ¬ (∀ (pts : List (Nat × ℚ)) (res : Result), findCDFull 0 pts = some res →
        ∀ d ∈ res.decisions, ∀ t ∈ d.dischargeTimes, ∀ u ∈ d.chargeTimes,
          t / 24 = u / 24) := by
  intro h
  have hc := h [(23, 10), (24, 50)] ⟨[23], [24], [⟨[23], 10, [24]⟩]⟩
    (by norm_num [findCDFull, mkResult, greedyLoop, newDischarge, sortBlocks, blockLE,
      Block.startHour, mkBlocks, blockOf, buildBlock, extendBlock, sortT, timeLE,
      sortNat, Block.times, List.insertionSort, List.orderedInsert, List.filter])
    ⟨[23], 10, [24]⟩ (by simp) 24 (by simp) 23 (by simp)
  norm_num at hc

/-- Witness for the amended claim C4: a concrete kept block has a nonempty
option list. -/
theorem claim_C4_witness :
    Block.discharge ⟨[(0, 1)], 1, [(2, 5)]⟩ ≠ [] :=
  claim_C4_amended.1 0 [(0, 1), (2, 5)] ⟨[(0, 1)], 1, [(2, 5)]⟩ (by
    norm_num [mkBlocks, blockOf, buildBlock, extendBlock, List.filter])

lemma perm_shuffle {α : Type} (a b c d : List α) :
    ((a ++ b) ++ (c ++ d)).Perm ((a ++ c) ++ (b ++ d)) := by
  simp only [List.append_assoc]
  exact List.Perm.append_left a (List.perm_append_comm_assoc b c d)

lemma greedyLoop_acc (bs : List Block) (ch dis used : List Nat) (decs : List Decision) :
    ∃ e1 e2 e3, (greedyLoop bs ch dis used decs).1 = ch ++ e1 ∧
      (greedyLoop bs ch dis used decs).2.1 = dis ++ e2 ∧
      (greedyLoop bs ch dis used decs).2.2 = decs ++ e3 := by
  induction bs generalizing ch dis used decs with
  | nil => exact ⟨[], [], [], by simp [greedyLoop], by simp [greedyLoop],
      by simp [greedyLoop]⟩
  | cons b bs ih =>
    simp only [greedyLoop]
    by_cases hskip : (b.times.any fun t => decide (t ∈ used)) = true
    · rw [if_pos hskip]; exact ih ch dis used decs
    · rw [if_neg hskip]
      obtain ⟨e1, e2, e3, h1, h2, h3⟩ := ih (ch ++ b.times) (dis ++ newDischarge b used)
        (used ++ b.times ++ newDischarge b used)
        (decs ++ [⟨b.times, b.avg, newDischarge b used⟩])
      refine ⟨b.times ++ e1, newDischarge b used ++ e2,
        [⟨b.times, b.avg, newDischarge b used⟩] ++ e3, ?_, ?_, ?_⟩
      · simp only [List.append_assoc] at h1 ⊢; exact h1
      · simp only [List.append_assoc] at h2 ⊢; exact h2
      · simp only [List.append_assoc] at h3 ⊢; exact h3

lemma greedyLoop_decisions (bs : List Block) (ch dis used : List Nat)
    (decs : List Decision) (d : Decision)
    (hd : d ∈ (greedyLoop bs ch dis used decs).2.2) :
    d ∈ decs ∨ ∃ b, b ∈ bs ∧ d.chargeTimes = b.times ∧ d.chargePrice = b.avg ∧
      ∃ u, d.dischargeTimes = newDischarge b u := by
  induction bs generalizing ch dis used decs with
  | nil => left; simpa [greedyLoop] using hd
  | cons b bs ih =>
    simp only [greedyLoop] at hd
    by_cases hskip : (b.times.any fun t => decide (t ∈ used)) = true
    · rw [if_pos hskip] at hd
      rcases ih _ _ _ _ hd with h | ⟨b', hb', h⟩
      · exact Or.inl h
      · exact Or.inr ⟨b', List.mem_cons_of_mem _ hb', h⟩
    · rw [if_neg hskip] at hd
      rcases ih _ _ _ _ hd with h | ⟨b', hb', h⟩
      · rcases List.mem_append.mp h with h' | h'
        · exact Or.inl h'
        · have hdb : d = ⟨b.times, b.avg, newDischarge b used⟩ := by simpa using h'
          subst hdb
          exact Or.inr ⟨b, List.mem_cons_self _ _, rfl, rfl, used, rfl⟩
      · exact Or.inr ⟨b', List.mem_cons_of_mem _ hb', h⟩

lemma greedyLoop_charge_of_decision (bs : List Block) (ch dis used : List Nat)
    (decs : List Decision) (d : Decision)
    (hd : d ∈ (greedyLoop bs ch dis used decs).2.2) :
    d ∈ decs ∨ ∀ t ∈ d.chargeTimes, t ∈ (greedyLoop bs ch dis used decs).1 := by
  induction bs generalizing ch dis used decs with
  | nil => left; simpa [greedyLoop] using hd
  | cons b bs ih =>
    simp only [greedyLoop] at hd ⊢
    by_cases hskip : (b.times.any fun t => decide (t ∈ used)) = true
    · rw [if_pos hskip] at hd ⊢
      exact ih _ _ _ _ hd
    · rw [if_neg hskip] at hd ⊢
      rcases ih _ _ _ _ hd with h | h
      · rcases List.mem_append.mp h with h' | h'
        · exact Or.inl h'
        · have hdb : d = ⟨b.times, b.avg, newDischarge b used⟩ := by simpa using h'
          subst hdb
          right
          intro t ht
          obtain ⟨e1, -, -, h1, -, -⟩ := greedyLoop_acc bs (ch ++ b.times)
            (dis ++ newDischarge b used) (used ++ b.times ++ newDischarge b used)
            (decs ++ [⟨b.times, b.avg, newDischarge b used⟩])
          rw [h1]
          exact List.mem_append_left _ (List.mem_append_right _ ht)
      · exact Or.inr h

lemma greedyLoop_nodup (bs : List Block) (ch dis used : List Nat) (decs : List Decision)
    (hwf : ∀ b ∈ bs, b.times.Nodup ∧ (b.discharge.map Prod.fst).Nodup)
    (hperm : used.Perm (ch ++ dis))
    (hnd : used.Nodup)
    (hjoin : ((decs.map consumed).flatten).Perm used) :
    ((greedyLoop bs ch dis used decs).1 ++ (greedyLoop bs ch dis used decs).2.1).Nodup ∧
    ((((greedyLoop bs ch dis used decs).2.2).map consumed).flatten).Perm
      ((greedyLoop bs ch dis used decs).1 ++ (greedyLoop bs ch dis used decs).2.1) := by
  induction bs generalizing ch dis used decs with
  | nil =>
    simp only [greedyLoop]
    exact ⟨hperm.nodup hnd, hjoin.trans hperm⟩
  | cons b bs ih =>
    have hwfb := hwf b (List.mem_cons_self _ _)
    have hwfs : ∀ b' ∈ bs, b'.times.Nodup ∧ (b'.discharge.map Prod.fst).Nodup :=
      fun b' hb' => hwf b' (List.mem_cons_of_mem _ hb')
    simp only [greedyLoop]
    by_cases hskip : (b.times.any fun t => decide (t ∈ used)) = true
    · rw [if_pos hskip]
      exact ih _ _ _ _ hwfs hperm hnd hjoin
    · rw [if_neg hskip]
      have hbt_used : ∀ t ∈ b.times, t ∉ used := by
        intro t ht hmem
        exact hskip (List.any_eq_true.mpr ⟨t, ht, decide_eq_true hmem⟩)
      have hnd_dts : (newDischarge b used).Nodup := List.Nodup.filter _ hwfb.2
      have hdts_not : ∀ t ∈ newDischarge b used, t ∉ used ++ b.times := by
        intro t ht
        exact of_decide_eq_true (List.mem_filter.mp ht).2
      have hnd' : (used ++ b.times ++ newDischarge b used).Nodup := by
        rw [List.append_assoc, List.nodup_append]
        refine ⟨hnd, ?_, ?_⟩
        · rw [List.nodup_append]
          refine ⟨hwfb.1, hnd_dts, ?_⟩
          intro t ht ht2
          exact hdts_not t ht2 (List.mem_append_right _ ht)
        · intro t ht ht2
          rcases List.mem_append.mp ht2 with h' | h'
          · exact hbt_used t h' ht
          · exact hdts_not t h' (List.mem_append_left _ ht)
      have hperm' : (used ++ b.times ++ newDischarge b used).Perm
          ((ch ++ b.times) ++ (dis ++ newDischarge b used)) := by
        rw [List.append_assoc]
        exact (List.Perm.append_right _ hperm).trans
          (perm_shuffle ch dis b.times (newDischarge b used))
      have hstep : ((List.map consumed
          [Decision.mk b.times b.avg (newDischarge b used)]).flatten) =
          b.times ++ newDischarge b used := by
        simp [consumed]
      have hjoin' : ((List.map consumed
          (decs ++ [Decision.mk b.times b.avg (newDischarge b used)])).flatten).Perm
          (used ++ b.times ++ newDischarge b used) := by
        rw [List.map_append, List.flatten_append, hstep, ← List.append_assoc]
        exact List.Perm.append_right _ (List.Perm.append_right _ hjoin)
      exact ih _ _ _ _ hwfs hperm' hnd' hjoin'

lemma sortNat_perm (l : List Nat) : (sortNat l).Perm l :=
  List.perm_insertionSort _ _

lemma mem_sortNat {l : List Nat} {t : Nat} : t ∈ sortNat l ↔ t ∈ l :=
  List.mem_insertionSort _

lemma findCDFull_eq {m : ℚ} {pts : List (Nat × ℚ)} {res : Result}
    (h : findCDFull m pts = some res) :
    res = mkResult (greedyLoop (sortBlocks (mkBlocks m (sortT pts))) [] [] [] []) := by
  unfold findCDFull at h
  split_ifs at h
  exact (Option.some_inj.mp h).symm

lemma blocks_wf_sorted {m : ℚ} {pts : List (Nat × ℚ)}
    (hnd : (pts.map Prod.fst).Nodup) :
    ∀ b ∈ sortBlocks (mkBlocks m (sortT pts)),
      b.times.Nodup ∧ (b.discharge.map Prod.fst).Nodup := by
  intro b hb
  have hb' : b ∈ mkBlocks m (sortT pts) := (List.mem_insertionSort _).mp hb
  have h := block_wf (sortT_pairwise hnd) hb'
  exact ⟨h.1, h.2.1⟩

/-- Claim C3: on a series with pairwise distinct timestamps, any two committed
assignments consume disjoint sets of hours, and in the returned result no hour
occurs both as a charge hour and as a discharge hour, nor twice in either
list. -/
theorem claim_C3 (m : ℚ) (pts : List (Nat × ℚ)) (hnd : (pts.map Prod.fst).Nodup)
    (res : Result) (h : findCDFull m pts = some res) :
    res.decisions.Pairwise (fun d1 d2 => ∀ t ∈ consumed d1, t ∉ consumed d2) ∧
    res.chargeHours.Nodup ∧ res.dischargeHours.Nodup ∧
    ∀ t ∈ res.dischargeHours, t ∉ res.chargeHours := by
  have hres := findCDFull_eq h
  subst hres
  obtain ⟨hN, hJ⟩ := greedyLoop_nodup (sortBlocks (mkBlocks m (sortT pts))) [] [] [] []
    (blocks_wf_sorted hnd) (by simp) (by simp) (by simp)
  have hch : (greedyLoop (sortBlocks (mkBlocks m (sortT pts))) [] [] [] []).1.Nodup :=
    (List.nodup_append.mp hN).1
  have hdis : (greedyLoop (sortBlocks (mkBlocks m (sortT pts))) [] [] [] []).2.1.Nodup :=
    (List.nodup_append.mp hN).2.1
  refine ⟨?_, ?_, ?_, ?_⟩
  · have hflat := hJ.symm.nodup hN
    have hp := (List.nodup_flatten.mp hflat).2
    have hp2 := List.pairwise_map.mp hp
    exact hp2.imp (fun hdisj t ht ht2 => hdisj ht ht2)
  · exact (sortNat_perm _).symm.nodup hch
  · exact List.Nodup.filter _ ((sortNat_perm _).symm.nodup hdis)
  · intro t ht
    have hnotin : t ∉ (greedyLoop (sortBlocks (mkBlocks m (sortT pts))) [] [] [] []).1 :=
      of_decide_eq_true (List.mem_filter.mp ht).2
    intro hmem
    exact hnotin (mem_sortNat.mp hmem)

/-- Witness for claim C3 at a concrete two-record series. -/
theorem claim_C3_witness :
    ([⟨[0], 0, [2]⟩] : List Decision).Pairwise
      (fun d1 d2 => ∀ t ∈ consumed d1, t ∉ consumed d2) ∧
    ([0] : List Nat).Nodup ∧ ([2] : List Nat).Nodup ∧
    ∀ t ∈ ([2] : List Nat), t ∉ ([0] : List Nat) :=
  claim_C3 0 [(0, 0), (2, 50)] (by decide) ⟨[0], [2], [⟨[0], 0, [2]⟩]⟩ (by
    norm_num [findCDFull, mkResult, greedyLoop, newDischarge, sortBlocks, blockLE,
      Block.startHour, mkBlocks, blockOf, buildBlock, extendBlock, sortT, timeLE,
      sortNat, Block.times, List.insertionSort, List.orderedInsert, List.filter])

/-- Claim C5: on a series with pairwise distinct timestamps, every committed
discharge hour has a cost at least its parent block's average cost plus the
margin, and lies strictly after every hour of the parent block. -/
theorem claim_C5 (m : ℚ) (pts : List (Nat × ℚ)) (hnd : (pts.map Prod.fst).Nodup)
    (res : Result) (h : findCDFull m pts = some res) :
    ∀ d ∈ res.decisions, ∀ t ∈ d.dischargeTimes,
      ∃ p, (t, p) ∈ pts ∧ d.chargePrice + m ≤ p ∧ ∀ u ∈ d.chargeTimes, u < t := by
  have hres := findCDFull_eq h
  subst hres
  intro d hd t ht
  have hd' : d ∈ (greedyLoop (sortBlocks (mkBlocks m (sortT pts))) [] [] [] []).2.2 := hd
  rcases greedyLoop_decisions _ _ _ _ _ _ hd' with h0 | ⟨b, hb, hct, hcp, u, hdt⟩
  · simp at h0
  · have hbm : b ∈ mkBlocks m (sortT pts) := (List.mem_insertionSort _).mp hb
    have hwf := block_wf (sortT_pairwise hnd) hbm
    rw [hdt] at ht
    have ht2 : t ∈ b.discharge.map Prod.fst := List.mem_of_mem_filter ht
    obtain ⟨x, hx, hxt⟩ := List.mem_map.mp ht2
    have hprops := hwf.2.2 x hx
    refine ⟨x.2, ?_, ?_, ?_⟩
    · have hxp : x ∈ pts := (sortT_perm pts).mem_iff.mp hprops.1
      rw [← hxt]
      simpa [Prod.mk.eta] using hxp
    · rw [hcp]
      exact hprops.2.1
    · intro v hv
      rw [hct] at hv
      rw [← hxt]
      exact hprops.2.2 v hv

/-- Witness for claim C5 at a concrete two-record series. -/
theorem claim_C5_witness :
    ∃ p, ((2 : Nat), p) ∈ ([(0, 0), (2, 50)] : List (Nat × ℚ)) ∧
      Decision.chargePrice ⟨[0], 0, [2]⟩ + 0 ≤ p ∧
      ∀ u ∈ Decision.chargeTimes ⟨[0], 0, [2]⟩, u < 2 :=
  claim_C5 0 [(0, 0), (2, 50)] (by decide) ⟨[0], [2], [⟨[0], 0, [2]⟩]⟩ (by
    norm_num [findCDFull, mkResult, greedyLoop, newDischarge, sortBlocks, blockLE,
      Block.startHour, mkBlocks, blockOf, buildBlock, extendBlock, sortT, timeLE,
      sortNat, Block.times, List.insertionSort, List.orderedInsert, List.filter])
    ⟨[0], 0, [2]⟩ (by simp) 2 (by simp)

/-- Claim C2 (corrected): a pair is skipped, with nothing committed, exactly
when one of the block's charge hours is already used; when it is committed,
all its charge hours are committed, while the discharge side keeps only the
option hours not already used, so a partially committed discharge list is
possible.  Every committed decision takes its full charge block and a
filtered subset of its block's discharge options. -/
theorem claim_C2_amended (m : ℚ) (pts : List (Nat × ℚ)) (res : Result)
    (h : findCDFull m pts = some res) :
    ∀ d ∈ res.decisions, ∃ b, b ∈ mkBlocks m (sortT pts) ∧
      d.chargeTimes = b.times ∧ d.chargePrice = b.avg ∧
      (∃ u, d.dischargeTimes = newDischarge b u) ∧
      ∀ t ∈ d.chargeTimes, t ∈ res.chargeHours := by
  have hres := findCDFull_eq h
  subst hres
  intro d hd
  have hd' : d ∈ (greedyLoop (sortBlocks (mkBlocks m (sortT pts))) [] [] [] []).2.2 := hd
  rcases greedyLoop_decisions _ _ _ _ _ _ hd' with h0 | ⟨b, hb, hct, hcp, u, hdt⟩
  · simp at h0
  · refine ⟨b, (List.mem_insertionSort _).mp hb, hct, hcp, ⟨u, hdt⟩, ?_⟩
    rcases greedyLoop_charge_of_decision _ _ _ _ _ _ hd' with h0 | hsub
    · simp at h0
    · intro t ht
      show t ∈ sortNat (greedyLoop (sortBlocks (mkBlocks m (sortT pts))) [] [] [] []).1
      exact mem_sortNat.mpr (hsub t ht)

/-- Witness for the amended claim C2 at a concrete two-record series. -/
theorem claim_C2_witness :
    ∃ b, b ∈ mkBlocks 0 (sortT [(0, 0), (2, 50)]) ∧
      Decision.chargeTimes ⟨[0], 0, [2]⟩ = b.times ∧
      Decision.chargePrice ⟨[0], 0, [2]⟩ = b.avg ∧
      (∃ u, Decision.dischargeTimes ⟨[0], 0, [2]⟩ = newDischarge b u) ∧
      ∀ t ∈ Decision.chargeTimes ⟨[0], 0, [2]⟩,
        t ∈ Result.chargeHours ⟨[0], [2], [⟨[0], 0, [2]⟩]⟩ :=
  claim_C2_amended 0 [(0, 0), (2, 50)] ⟨[0], [2], [⟨[0], 0, [2]⟩]⟩ (by
    norm_num [findCDFull, mkResult, greedyLoop, newDischarge, sortBlocks, blockLE,
      Block.startHour, mkBlocks, blockOf, buildBlock, extendBlock, sortT, timeLE,
      sortNat, Block.times, List.insertionSort, List.orderedInsert, List.filter])
    ⟨[0], 0, [2]⟩ (by simp)

/-- Counterexample to claim C2 as stated: were every pair with an already
used discharge-run hour skipped whole, every committed decision would carry
all of its block's discharge options; on the series 0→0, 1→1, 5→1, 6→0,
11→1 at margin 0 the block of hours 0 and 1 (options 5 and 11) is committed
after hour 11 is taken by the block of hour 6, and its decision keeps hour 5
but drops hour 11 — a partial assignment. -/
theorem claim_C2_cex :
    ¬ (∀ (m : ℚ) (pts : List (Nat × ℚ)) (res : Result), findCDFull m pts = some res →
        ∀ d ∈ res.decisions, ∀ b ∈ mkBlocks m (sortT pts),
          d.chargeTimes = b.times → d.dischargeTimes = b.discharge.map Prod.fst) := by
  intro h
  have hc := h 0 [(0, 0), (1, 1), (5, 1), (6, 0), (11, 1)]
    ⟨[0, 1, 6], [5, 11], [⟨[6], 0, [11]⟩, ⟨[0, 1], 1/2, [5]⟩]⟩
    (by norm_num [findCDFull, mkResult, greedyLoop, newDischarge, sortBlocks, blockLE,
      Block.startHour, mkBlocks, blockOf, buildBlock, extendBlock, sortT, timeLE,
      sortNat, Block.times, List.insertionSort, List.orderedInsert, List.filter])
    ⟨[0, 1], 1/2, [5]⟩ (by simp)
    ⟨[(0, 0), (1, 1)], 1/2, [(5, 1), (11, 1)]⟩
    (by norm_num [mkBlocks, blockOf, buildBlock, extendBlock, sortT, timeLE,
      List.insertionSort, List.orderedInsert, List.filter])
    (by norm_num [Block.times])
  norm_num at hc

/-- Claim C9 (corrected): what is antitone in the margin is each candidate
block's option set, not the committed discharge count: for margins m1 ≤ m2,
every block kept at m2 is also kept at m1, with the same hours and average
and with at least the same discharge options.  The number of committed
discharge hours of the whole schedule is not antitone. -/
theorem claim_C9_amended (m1 m2 : ℚ) (hm : m1 ≤ m2) (l : List (Nat × ℚ))
    (b2 : Block) (hb2 : b2 ∈ mkBlocks m2 l) :
    ∃ b1, b1 ∈ mkBlocks m1 l ∧ b1.hours = b2.hours ∧ b1.avg = b2.avg ∧
      ∀ x ∈ b2.discharge, x ∈ b1.discharge := by
  obtain ⟨s, hs, h⟩ := mem_mkBlocks hb2
  obtain ⟨hne, hhours, havg, hdis, hdne⟩ := blockOf_eq_some h
  have hsup : ∀ x ∈ b2.discharge,
      x ∈ (s.drop (buildBlock s).length).filter
        (fun tp => decide (b2.avg + m1 ≤ tp.2)) := by
    intro x hx
    rw [hdis] at hx
    obtain ⟨hmem, hq⟩ := List.mem_filter.mp hx
    have hq2 : b2.avg + m2 ≤ x.2 := of_decide_eq_true hq
    exact List.mem_filter.mpr ⟨hmem, decide_eq_true (by linarith)⟩
  cases s with
  | nil => exact absurd rfl hne
  | cons y rest =>
    have hne1 : ¬ (((y :: rest).drop (buildBlock (y :: rest)).length).filter
        (fun tp => decide (((buildBlock (y :: rest)).map Prod.snd).sum /
          ((buildBlock (y :: rest)).length : ℚ) + m1 ≤ tp.2))).isEmpty = true := by
      obtain ⟨x, hx⟩ := List.exists_mem_of_ne_nil _ hdne
      have hx1 := hsup x hx
      rw [havg] at hx1
      simpa using List.ne_nil_of_mem hx1
    have hbb : blockOf m1 (y :: rest) = some ⟨buildBlock (y :: rest),
        ((buildBlock (y :: rest)).map Prod.snd).sum /
          ((buildBlock (y :: rest)).length : ℚ),
        ((y :: rest).drop (buildBlock (y :: rest)).length).filter
          (fun tp => decide (((buildBlock (y :: rest)).map Prod.snd).sum /
            ((buildBlock (y :: rest)).length : ℚ) + m1 ≤ tp.2))⟩ := by
      simp only [blockOf]
      rw [if_neg hne1]
    refine ⟨_, mkBlocks_of_suffix hs hbb, ?_, ?_, ?_⟩
    · rw [hhours]
    · rw [havg]
    · intro x hx
      have hx1 := hsup x hx
      rw [havg] at hx1
      exact hx1

/-- Counterexample to claim C9 as stated: on the series 0→3, 2→0, 3→4, 4→4,
5→3, raising the margin from 0 to 1 discards the cheap block of hours 2-4,
freeing hours 3 and 4 to serve as discharge hours of the block of hour 0, so
the schedule's discharge count grows from 1 to 2. -/
theorem claim_C9_cex :
    ¬ (∀ (m1 m2 : ℚ) (pts : List (Nat × ℚ)) (r1 r2 : Result), m1 ≤ m2 →
        findCDFull m1 pts = some r1 → findCDFull m2 pts = some r2 →
        r2.dischargeHours.length ≤ r1.dischargeHours.length) := by
  intro h
  have hc := h 0 1 [(0, 3), (2, 0), (3, 4), (4, 4), (5, 3)]
    ⟨[0, 2, 3, 4], [5], [⟨[2, 3, 4], 8/3, [5]⟩, ⟨[0], 3, []⟩]⟩
    ⟨[0], [3, 4], [⟨[0], 3, [3, 4]⟩]⟩
    (by norm_num)
    (by norm_num [findCDFull, mkResult, greedyLoop, newDischarge, sortBlocks, blockLE,
      Block.startHour, mkBlocks, blockOf, buildBlock, extendBlock, sortT, timeLE,
      sortNat, Block.times, List.insertionSort, List.orderedInsert, List.filter])
    (by norm_num [findCDFull, mkResult, greedyLoop, newDischarge, sortBlocks, blockLE,
      Block.startHour, mkBlocks, blockOf, buildBlock, extendBlock, sortT, timeLE,
      sortNat, Block.times, List.insertionSort, List.orderedInsert, List.filter])
  norm_num at hc

/-- Witness for the amended claim C9 at a concrete two-record series and the
margin pair 0 ≤ 1. -/
theorem claim_C9_witness :
    ∃ b1, b1 ∈ mkBlocks 0 [(0, 1), (2, 5)] ∧
      b1.hours = Block.hours ⟨[(0, 1)], 1, [(2, 5)]⟩ ∧
      b1.avg = Block.avg ⟨[(0, 1)], 1, [(2, 5)]⟩ ∧
      ∀ x ∈ Block.discharge ⟨[(0, 1)], 1, [(2, 5)]⟩, x ∈ b1.discharge :=
  claim_C9_amended 0 1 (by norm_num) [(0, 1), (2, 5)] ⟨[(0, 1)], 1, [(2, 5)]⟩
    (by norm_num [mkBlocks, blockOf, buildBlock, extendBlock, List.filter])

/-- Claim C10: in the day-segment-restricted variant the returned charge and
discharge lists are not always disjoint: for the series with hours 0-4 at
cost 10 and hours 12-14 at cost 100, the hours 12, 13, 14 of the second
segment's charge block also appear in the returned discharge list, because
the night block's discharge candidates are collected from every later
qualifying hour without excluding hours of later charge blocks. -/
theorem claim_C10 :
    findCDSimple [(0, 10), (1, 10), (2, 10), (3, 10), (4, 10),
        (12, 100), (13, 100), (14, 100)] =
      some ([0, 1, 2, 12, 13, 14], [12, 13, 14]) ∧
    (12 : Nat) ∈ [0, 1, 2, 12, 13, 14] ∧ (12 : Nat) ∈ [12, 13, 14] ∧
    12 ≤ (12 : Nat) % 24 ∧ (12 : Nat) % 24 < 16 := by
  refine ⟨?_, by norm_num, by norm_num, by norm_num, by norm_num⟩
  norm_num [findCDSimple, bestWindow, sortT, timeLE, sortNat, simpleBlockLE,
    List.insertionSort, List.orderedInsert, List.filter, List.filterMap,
    List.range_succ, List.dedup_cons_of_mem, List.dedup_cons_of_not_mem]
